import Mathlib

/-!
# Verification of the go-arabic-light-stemmer core

A shallow embedding of the Arabic light stemmer
(`arabic/stemmer/stemmer.go` and its collaborators in
`arabic/stop_words`, `arabic/stamp`, `arabic/utils`) into Lean 4.

Go strings are modelled as `List Char` (one entry per rune).  Where the
Go source measures or indexes strings in BYTES (`len(s)`, `s[i]`,
`range s`), the model goes through an explicit UTF-8 byte encoding
(`strBytes`, `goLen`, `runeOffsets`) so that the byte/rune distinction
of the source is preserved exactly.  A Go slice expression `s[l:r]`
panics when the bounds are invalid; slices are therefore modelled by
`goSlice`, which returns `none` exactly when Go would panic, and the
stemming pipeline runs in the `Option` monad (`none` = runtime panic or
fuel exhaustion of the mutually recursive stem-choice functions).

Static configuration (letter classes, affix lists, the stopword table,
the verb-stamp registry and the root dictionary) lives outside the
repository's `src/` tree and is passed in through the `Config`
structure and explicit parameters.
-/

/-- The eight tashkeel (haraka) marks matched by
`regex.CreateHarakatPattern` / `constant.TASHKEEL`:
FATHATAN, DAMMATAN, KASRATAN, FATHA, DAMMA, KASRA, SHADDA, SUKUN
(U+064B .. U+0652). -/
def tashkeelChars : List Char :=
  ['ً', 'ٌ', 'ٍ', 'َ', 'ُ', 'ِ', 'ّ', 'ْ']

/-- `tashkeelChecker.IsTashkeel` (tashkeel_checker.go): membership in the
tashkeel table. -/
def isTashkeel (c : Char) : Bool :=
  tashkeelChars.contains c

/-- Go's `unicode.IsLetter`, restricted to the code points this
development evaluates on: ASCII letters and the Arabic block
(letters U+0621..U+064A; the tashkeel marks U+064B..U+0652 are
combining marks, not letters, and ASCII punctuation and the joker
are not letters). -/
def goIsLetter (c : Char) : Bool :=
  ('A' ≤ c ∧ c ≤ 'Z') ∨ ('a' ≤ c ∧ c ≤ 'z') ∨ ('ء' ≤ c ∧ c ≤ 'ي')

/-- `wordProcessor.IsAlpha` (part_002): every rune is a letter. -/
def isAlpha (w : List Char) : Bool :=
  w.all goIsLetter

/-- `wordProcessor.IsVocalized` (part_002): `false` for all-letter
words, otherwise `true` iff some rune is a tashkeel mark. -/
def isVocalized (w : List Char) : Bool :=
  if isAlpha w then false else w.any isTashkeel

/-- `wordProcessor.StripTashkeel` (part_002): identity on the empty
and unvocalized words, otherwise drops the tashkeel marks. -/
def stripTashkeel (w : List Char) : List Char :=
  if w = [] then w
  else if isVocalized w then w.filter (fun c => ¬ isTashkeel c) else w

/-- UTF-8 encoding of a single code point, as Go lays strings out in
memory. -/
def utf8Bytes (c : Char) : List Nat :=
  let n := c.toNat
  if n < 0x80 then [n]
  else if n < 0x800 then [0xC0 + n / 64, 0x80 + n % 64]
  else if n < 0x10000 then [0xE0 + n / 4096, 0x80 + n / 64 % 64, 0x80 + n % 64]
  else [0xF0 + n / 262144, 0x80 + n / 4096 % 64, 0x80 + n / 64 % 64, 0x80 + n % 64]

/-- The byte sequence of a Go string. -/
def strBytes (s : List Char) : List Nat :=
  s.flatMap utf8Bytes

/-- Go's `len(s)` on a string: its length in BYTES (an Arabic letter
contributes 2). -/
def goLen (s : List Char) : Nat :=
  (strBytes s).length

/-- The `(byte offset, rune)` pairs produced by Go's `for i, c := range s`. -/
def runeOffsets (s : List Char) : List (Nat × Char) :=
  (s.foldl
    (fun (acc : List (Nat × Char) × Nat) c =>
      (acc.1 ++ [(acc.2, c)], acc.2 + (utf8Bytes c).length))
    ([], 0)).1

/-- A Go slice `s[l:r]` on a rune slice: defined only when
`0 ≤ l ≤ r ≤ len s`; out-of-range bounds panic in Go and give `none`
here. -/
def goSlice (s : List Char) (l r : Int) : Option (List Char) :=
  if 0 ≤ l ∧ l ≤ r ∧ r ≤ (s.length : Int) then
    some ((s.drop l.toNat).take (r - l).toNat)
  else none

/-- The nested `map[string]interface{}` trie of `createPrefixTree` /
`createSuffixTree`, as a tagged node: `term` is the presence of the
`"#"` marker, `children` the single-character edges. -/
inductive Trie where
  | node (term : Bool) (children : List (Char × Trie))
deriving Repr

/-- Whether the node carries the `"#"` terminal marker. -/
def Trie.hasTerm : Trie → Bool
  | .node t _ => t

/-- Child lookup along a single-character edge. -/
def Trie.child : Trie → Char → Option Trie
  | .node _ ch, c => ch.lookup c

/-- Replace or add the subtree under edge `c`. -/
def trieUpsert (ch : List (Char × Trie)) (c : Char) (t : Trie) : List (Char × Trie) :=
  if ch.any (fun p => p.1 = c) then
    ch.map (fun p => if p.1 = c then (c, t) else p)
  else ch ++ [(c, t)]

/-- Insert one affix (walking its characters in the given order and
marking the final node), as the loop bodies of `createPrefixTree` and
`createSuffixTree` do. -/
def trieInsert : Trie → List Char → Trie
  | .node _ ch, [] => .node true ch
  | .node t ch, c :: cs =>
    let sub := match ch.lookup c with
      | some s => s
      | none => .node false []
    .node t (trieUpsert ch c (trieInsert sub cs))

/-- `createPrefixTree` (stemmer.go:223): insert every prefix
front-to-back. -/
def createPrefixTree (ps : List (List Char)) : Trie :=
  ps.foldl (fun t p => trieInsert t p) (.node false [])

/-- `createSuffixTree` (stemmer.go:246): insert every suffix
back-to-front. -/
def createSuffixTree (ss : List (List Char)) : Trie :=
  ss.foldl (fun t s => trieInsert t s.reverse) (.node false [])

/-- The loop of `lookupPrefixes` (stemmer.go:954).  Faithfully to the
source, the loop condition compares `i` against the BYTE length of the
word while `runeWord[i]` indexes the RUNE slice; the rune access is
out of range (a Go panic, here `none`) as soon as `i` reaches the rune
count with the byte bound not yet exhausted.  `gas` counts the
iterations left, `byteLen - i`, so `gas = 0` is normal loop exit with
`i` at the byte length. -/
def lpLoop (rw : List Char) (branch : Trie) (i : Nat) (gas : Nat)
    (lefts : List Nat) : Option (List Nat) :=
  match gas with
  | 0 => some lefts
  | gas' + 1 =>
    match rw[i]? with
    | none => none
    | some c =>
      match branch.child c with
      | some sub =>
        lpLoop rw sub (i + 1) gas'
          (if branch.hasTerm then lefts ++ [i] else lefts)
      | none =>
        some (if branch.hasTerm then lefts ++ [i] else lefts)

/-- `lookupPrefixes` (stemmer.go:948): positions where a listed prefix
ends, found by walking the prefix trie; always seeded with `0`. -/
def lookupPrefixes (tree : Trie) (w : List Char) : Option (List Nat) :=
  lpLoop w tree 0 (goLen w) [0]

/-- The loop of `lookupSuffixes` (stemmer.go:984), walking the word
from its last rune leftwards (this loop is rune-indexed in the source
and in range throughout).  `k` is `i + 1` for the current index `i`,
so `k = 0` is loop exit with `i < 0`. -/
def lsLoop (rw : List Char) : Trie → Nat → List Nat → List Nat
  | _, 0, rights => rights
  | branch, k + 1, rights =>
    let c := rw.getD k ' '
    match branch.child c with
    | some sub =>
      lsLoop rw sub k (if branch.hasTerm then rights ++ [k + 1] else rights)
    | none => if branch.hasTerm then rights ++ [k + 1] else rights

/-- `lookupSuffixes` (stemmer.go:978). -/
def lookupSuffixes (tree : Trie) (w : List Char) : List Nat :=
  lsLoop w tree w.length []

/-- The `map[int][][2]int` of segment boundaries, as an association
list keyed by the left boundary; values are the stored
`[2]int{left, right}` pairs in insertion order. -/
abbrev SegMap : Type :=
  List (Nat × List (Nat × Nat))

/-- The pairs stored under key `k` (empty when the key is absent), as
read by `seenSegments` / `segmentList[i]`. -/
def segLookup (m : SegMap) (k : Nat) : List (Nat × Nat) :=
  match List.lookup k m with
  | some v => v
  | none => []

/-- `segmentList[i] = append(segmentList[i], segment)`: append a pair
under key `k`, creating the key if absent. -/
def segAppend (m : SegMap) (k : Nat) (p : Nat × Nat) : SegMap :=
  if (List.any m fun kv => kv.1 = k) then
    List.map (fun kv => if kv.1 = k then (kv.1, kv.2 ++ [p]) else kv) m
  else m ++ [(k, [p])]

/-- The segment-pair construction of `segment` (stemmer.go:462): the
cross product of prefix ends and suffix starts, filtered by
`j >= i+2` and deduplicated per left boundary. -/
def buildSegs (lefts rights : List Nat) : SegMap :=
  lefts.foldl
    (fun m i =>
      rights.foldl
        (fun m j =>
          if i + 2 ≤ j ∧ ¬ (i, j) ∈ segLookup m i then segAppend m i (i, j)
          else m)
        m)
    []

/-- The `maxLeft` accumulator step of `getLeftRight`
(stemmer.go:926). -/
def glMaxStep (acc : Int) (kv : Nat × List (Nat × Nat)) : Int :=
  if (kv.1 : Int) > acc then (kv.1 : Int) else acc

/-- The `minRight` accumulator step of `getLeftRight`
(stemmer.go:936), with `-1` as the not-yet-seen sentinel. -/
def glMinStep (acc : Int) (p : Nat × Nat) : Int :=
  if acc = -1 ∨ (p.2 : Int) < acc then (p.2 : Int) else acc

/-- `getLeftRight` (stemmer.go:919): `(-1, -1)` on the empty map,
otherwise the largest key and the smallest stored right boundary. -/
def getLeftRight (ls : SegMap) : Int × Int :=
  if ls = [] then (-1, -1)
  else
    (ls.foldl glMaxStep (-1),
     ls.foldl (fun acc kv => kv.2.foldl glMinStep acc) (-1))

/-- `utils.MaxFromSlice` (slice.go), defined on nonempty slices. -/
def maxFromSlice (l : List Nat) : Nat :=
  l.foldl (fun acc x => if x > acc then x else acc) (l.headD 0)

/-- `utils.MinFromSlice` (slice.go), defined on nonempty slices. -/
def minFromSlice (l : List Nat) : Nat :=
  l.foldl (fun acc x => if x < acc then x else acc) (l.headD 0)

/-- `utils.AffixInList` (slice.go): linear membership scan. -/
def affixInList (a : List Char) (l : List (List Char)) : Bool :=
  l.any (fun x => x = a)

/-- The stemmer's configuration: the letter classes, bounds, affix
lists and external tables that `NewArabicLightStemmer` wires in from
the `constant` package and the external managers (all configuration
data outside `src/`). `isVerbStamp` stands for
`verbListManager.IsVerbStamp` and `stopwords` for the stopword table
(word to precomputed stem). -/
structure Config where
  prefixLetters : List Char
  suffixLetters : List Char
  infixLetters : List Char
  maxPrefixLength : Int
  maxSuffixLength : Int
  joker : Char
  prefixList : List (List Char)
  suffixList : List (List Char)
  verbAffixList : List (List Char)
  nounAffixList : List (List Char)
  stopwords : List (List Char × List Char)
  isVerbStamp : List Char → Bool

/-- `stopwordManager.IsStopword` (stop_word_manager.go:37): exact map
lookup on the raw word. -/
def isStopword (cfg : Config) (w : List Char) : Bool :=
  (List.lookup w cfg.stopwords).isSome

/-- `stopwordManager.StopStem` (stop_word_manager.go:44): the table's
stem for the word, tashkeel-stripped; `""` for unknown words. -/
def stopStem (cfg : Config) (w : List Char) : List Char :=
  match List.lookup w cfg.stopwords with
  | some st => stripTashkeel st
  | none => []

/-- Replace every rune outside `keep` by the joker: the character
class regex `[^...]` replacements of `transform2Stars`. -/
def maskChars (keep : List Char) (joker : Char) (s : List Char) : List Char :=
  s.map (fun c => if keep.contains c then c else joker)

/-- Index of the first occurrence of `c` (`-1` when absent). -/
def firstIdxOf (s : List Char) (c : Char) : Int :=
  match s.findIdx? (fun x => x = c) with
  | some i => (i : Int)
  | none => -1

/-- Index of the last occurrence of `c` (`-1` when absent). -/
def lastIdxOf (s : List Char) (c : Char) : Int :=
  match s.reverse.findIdx? (fun x => x = c) with
  | some i => (s.length : Int) - 1 - i
  | none => -1

/-- The loop body of the prefix trimming in `transform2Stars`
(stemmer.go:389); `gas` bounds the iterations (one rune is dropped per
round, so the candidate length suffices). -/
def trimPreLoop (plist : List (List Char)) (gas : Nat) (p : List Char) : List Char :=
  match gas with
  | 0 => p
  | gas' + 1 =>
    if p = [] ∨ plist.contains p then p else trimPreLoop plist gas' p.dropLast

/-- The prefix-trimming loop of `transform2Stars` (stemmer.go:389):
drop the last rune until the candidate is a listed prefix or empty. -/
def trimPreList (plist : List (List Char)) (p : List Char) : List Char :=
  trimPreLoop plist (p.length + 1) p

/-- The loop body of the suffix trimming in `transform2Stars`
(stemmer.go:397). -/
def trimSufLoop (slist : List (List Char)) (gas : Nat) (s : List Char) : List Char :=
  match gas with
  | 0 => s
  | gas' + 1 =>
    if s = [] ∨ slist.contains s then s else trimSufLoop slist gas' (s.drop 1)

/-- The suffix-trimming loop of `transform2Stars` (stemmer.go:397):
drop the first rune until the candidate is a listed suffix or empty. -/
def trimSufList (slist : List (List Char)) (s : List Char) : List Char :=
  trimSufLoop slist (s.length + 1) s

/-- The result quadruple of `transform2Stars`. -/
structure StarResult where
  starword : List Char
  unvoc : List Char
  left : Int
  right : Int
deriving DecidableEq, Repr

/-- `transform2Stars` (stemmer.go:327): strip tashkeel, expand
Alef-Madda, mask non-affix letters to the joker, clamp a first
prefix/suffix window around the joker span, then re-derive tight
boundaries by trimming the prefix and suffix against the configured
lists, and mask the stem region down to the infix letters. -/
def transform2Stars (cfg : Config) (word0 : List Char) : Option StarResult :=
  let w1 := stripTashkeel word0
  let unvoc := w1
  let w2 := w1.flatMap (fun c => if c = 'آ' then ['أ', 'ا'] else [c])
  let w3 := maskChars (cfg.prefixLetters ++ cfg.suffixLetters) cfg.joker w2
  let l0 := firstIdxOf w3 cfg.joker
  let r0 := lastIdxOf w3 cfg.joker
  (if l0 ≥ 0 then
    let l1 := min l0 (cfg.maxPrefixLength - 1)
    let r1 := max (r0 + 1) ((w3.length : Int) - cfg.maxSuffixLength)
    (goSlice w3 0 l1).bind fun preRaw =>
    (goSlice w3 l1 r1).bind fun stmRaw =>
    (goSlice w3 r1 (w3.length : Int)).bind fun sufRaw =>
      let pre := maskChars cfg.prefixLetters cfg.joker preRaw
      let stm :=
        if cfg.infixLetters ≠ [] then maskChars cfg.infixLetters cfg.joker stmRaw
        else stmRaw
      let suf := maskChars cfg.suffixLetters cfg.joker sufRaw
      some (pre ++ stm ++ suf)
  else some w3).bind fun w4 =>
    let l2 := firstIdxOf w4 cfg.joker
    let r2 := lastIdxOf w4 cfg.joker
    let l3 := if l2 < 0 then min cfg.maxPrefixLength ((w4.length : Int) - 2) else l2
    if l3 ≥ 0 then
      (goSlice w4 0 l3).bind fun pre0 =>
        let pre1 := trimPreList cfg.prefixList pre0
        let r3 :=
          if r2 < 0 then max (pre1.length : Int) ((w4.length : Int) - cfg.maxSuffixLength)
          else r2
        (goSlice w4 r3 (w4.length : Int)).bind fun suf0 =>
          let suf1 := trimSufList cfg.suffixList suf0
          let l4 : Int := (pre1.length : Int)
          let r4 : Int := (w4.length : Int) - (suf1.length : Int)
          (goSlice w4 l4 r4).bind fun stm0 =>
            let stm1 :=
              if cfg.infixLetters ≠ [] then maskChars cfg.infixLetters cfg.joker stm0
              else stm0
            some { starword := pre1 ++ stm1 ++ suf1, unvoc := unvoc,
                   left := l4, right := r4 }
    else some { starword := w4, unvoc := unvoc, left := l3, right := r2 }

/-- The result quadruple of `segment`. -/
structure SegResult where
  segs : SegMap
  unvoc : List Char
  left : Int
  right : Int
deriving DecidableEq, Repr

/-- `segment` (stemmer.go:421): strip tashkeel, expand Alef-Madda to
Hamza+Alef, look up all prefix and suffix boundaries in the tries,
build the admissible segment map, and derive the default boundary pair
with `getLeftRight`.  (The intermediate `left`/`right` from
`MaxFromSlice`/`MinFromSlice` in lines 431-441 are dead: line 474
overwrites both before they are read.) -/
def segmentWord (cfg : Config) (word : List Char) : Option SegResult :=
  let unvoc := stripTashkeel word
  let w := word.flatMap (fun c => if c = 'آ' then ['ء', 'ا'] else [c])
  (lookupPrefixes (createPrefixTree cfg.prefixList) w).bind fun lefts =>
    let rights := lookupSuffixes (createSuffixTree cfg.suffixList) w
    let m := buildSegs lefts rights
    let lr := getLeftRight m
    some { segs := m, unvoc := unvoc, left := lr.1, right := lr.2 }

/-- `validStem` (stemmer.go:625): the word-class-specific stem
acceptance rules.  Stem and prefix lengths here are RUNE lengths
(the source converts to rune slices first).  `vs` is the verb-stamp
registry lookup `verbListManager.IsVerbStamp`. -/
def validStem (vs : List Char → Bool) (stem : List Char) (tag : String)
    (pre : List Char) : Bool :=
  if stem = [] then false
  else if tag = "verb" then
    if 6 < stem.length ∨ stem.length < 2 then false
    else if stem.contains 'ة' then false
    else if stem.length = 6 ∧ ¬ stem.head? = some 'ا' then false
    else if stem.length = 5 ∧ ¬ stem.head? = some 'ا' ∧ ¬ stem.head? = some 'ت'
        ∧ (pre.getLast? = some 'ي' ∨ pre.getLast? = some 'ت'
           ∨ pre.getLast? = some 'ن' ∨ pre.getLast? = some 'أ') then false
    else if stem.head? = some 'ا' ∧ pre ≠ []
        ∧ (pre.getLast? = some 'ي' ∨ pre.getLast? = some 'ن'
           ∨ pre.getLast? = some 'ت' ∨ pre.getLast? = some 'أ'
           ∨ pre.getLast? = some 'ا') then false
    else if ¬ vs stem then false
    else true
  else if tag = "noun" then
    if 8 ≤ stem.length then false else true
  else true

/-- `getPrefix` (stemmer.go:589): the word's prefix text up to `left`
(or `prefixIndex` when that is set), falling back to the whole word on
out-of-range indices. -/
def getPrefixAt (u : List Char) (l pi : Int) : List Char :=
  if pi < 0 then
    if 0 ≤ l ∧ l ≤ (u.length : Int) then u.take l.toNat else u
  else
    if pi ≤ (u.length : Int) then u.take pi.toNat else u

/-- `getSuffix` (stemmer.go:607): the word's suffix text from `right`
(or `suffixIndex` when that is set), falling back to `""` on
out-of-range indices. -/
def getSuffixAt (u : List Char) (r si : Int) : List Char :=
  if si < 0 then
    if 0 ≤ r ∧ r ≤ (u.length : Int) then u.drop r.toNat else []
  else
    if si ≤ (u.length : Int) then u.drop si.toNat else []

mutual

/-- `getStem` (stemmer.go:481): with an explicit prefix or suffix
index, slice the unvocalized word between the (clamped) bounds;
otherwise — or when the bounds check fails — fall through to
`chooseStem`.  In this and the other four mutually recursive
functions, `fuel` models the Go call stack: every call consumes one
unit, and exhaustion (Go: unbounded mutual recursion, a stack
overflow) yields `none`. -/
def getStem (fuel : Nat) (cfg : Config) (w u : List Char)
    (l r sl sr pi si : Int) (m : SegMap) : Option (List Char) :=
  match fuel with
  | 0 => none
  | fuel' + 1 =>
    if pi ≥ 0 ∨ si ≥ 0 then
      let l1 := if pi < 0 then sl else pi
      let r1 := if si < 0 then sr else si
      let l2 := if l1 < 0 then 0 else l1
      let r2 := if r1 > (u.length : Int) then (u.length : Int) else r1
      if l2 ≤ r2 ∧ l2 < (u.length : Int) then goSlice u l2 r2
      else chooseStem fuel' cfg w u l2 r2 sl sr m
    else chooseStem fuel' cfg w u l r sl sr m

/-- `chooseStem` (stemmer.go:520): stopword bypass, re-segmentation of
an empty segment list (the source discards the result), validation of
every stored segment through `verifyAffix`, boundary choice by
`getLeftRight` (whole word when nothing validates), clamping, and the
final slice of the unvocalized word (a Go panic — `none` — when the
chosen left exceeds the chosen right). -/
def chooseStem (fuel : Nat) (cfg : Config) (w u : List Char)
    (l r sl sr : Int) (m : SegMap) : Option (List Char) :=
  match fuel with
  | 0 => none
  | fuel' + 1 =>
    if isStopword cfg w then some (stopStem cfg w)
    else
      (if m.length = 0 then (segmentWord cfg w).map (fun _ => ()) else some ()).bind
        fun _ =>
      (collectValid fuel' cfg w u l r sl sr m m []).bind fun valid =>
        let lr : Int × Int :=
          if valid.length = 0 then (0, (w.length : Int)) else getLeftRight valid
        let l2 := if lr.1 < 0 then 0 else lr.1
        let r2 := if lr.2 > (u.length : Int) then (u.length : Int) else lr.2
        goSlice u l2 r2

/-- The outer validation loop of `chooseStem` (stemmer.go:533): walk
the segment map entry by entry. -/
def collectValid (fuel : Nat) (cfg : Config) (w u : List Char)
    (l r sl sr : Int) (mAll rest acc : SegMap) : Option SegMap :=
  match fuel with
  | 0 => none
  | fuel' + 1 =>
    match rest with
    | [] => some acc
    | (k, ps) :: rest' =>
      (collectPairs fuel' cfg w u l r sl sr mAll k ps acc).bind fun acc' =>
        collectValid fuel' cfg w u l r sl sr mAll rest' acc'

/-- The inner validation loop of `chooseStem` (stemmer.go:534):
validate each stored pair, collecting `{leftIndex, rightIndex}` under
`leftIndex` on success. -/
def collectPairs (fuel : Nat) (cfg : Config) (w u : List Char)
    (l r sl sr : Int) (mAll : SegMap) (k : Nat) (ps : List (Nat × Nat))
    (acc : SegMap) : Option SegMap :=
  match fuel with
  | 0 => none
  | fuel' + 1 =>
    match ps with
    | [] => some acc
    | p :: ps' =>
      (verifyAffix fuel' cfg w u l r sl sr (k : Int) (p.2 : Int) mAll).bind fun b =>
        collectPairs fuel' cfg w u l r sl sr mAll k ps'
          (if b then segAppend acc k (k, p.2) else acc)

/-- `verifyAffix` (stemmer.go:568): build the `"prefix-suffix"` pair
and the candidate stem, then accept when the pair is listed and the
stem passes the class rules (the redundant verb-and-noun branch of the
source is kept literally). -/
def verifyAffix (fuel : Nat) (cfg : Config) (w u : List Char)
    (l r sl sr pi si : Int) (m : SegMap) : Option Bool :=
  match fuel with
  | 0 => none
  | fuel' + 1 =>
    let pre := getPrefixAt u l pi
    let suf := getSuffixAt u r si
    let afx := pre ++ '-' :: suf
    (getStem fuel' cfg w u l r sl sr pi si m).map fun stem =>
      if affixInList afx cfg.verbAffixList ∧ validStem cfg.isVerbStamp stem "verb" pre then
        if affixInList afx cfg.nounAffixList ∧ validStem cfg.isVerbStamp stem "noun" pre then
          true
        else true
      else if affixInList afx cfg.nounAffixList ∧ validStem cfg.isVerbStamp stem "noun" pre then
        true
      else false

end

/-- `LightStem` (stemmer.go:316): empty-word short circuit, then
star-transform, segmentation and stem extraction with unset
(`-1`) prefix and suffix indices.  `fuel` bounds the depth of the
mutual `getStem`/`chooseStem`/`verifyAffix` recursion (the Go call
stack). -/
def lightStem (cfg : Config) (fuel : Nat) (word : List Char) : Option (List Char) :=
  if word = [] then some []
  else
    (transform2Stars cfg word).bind fun t =>
      (segmentWord cfg word).bind fun s =>
        getStem fuel cfg word s.unvoc s.left s.right t.left t.right (-1) (-1) s.segs

/-- `utils.NormalizeHamza` (part_000): Alef variants (Alef-Madda,
Alef-Hamza-above/below, Hamza-above/below) to Alef, then Waw-Hamza and
Yeh-Hamza to bare Hamza. -/
def normalizeHamza (s : List Char) : List Char :=
  (s.map fun c => if c = 'آ' ∨ c = 'أ' ∨ c = 'إ' ∨ c = 'ٔ' ∨ c = 'ٕ' then 'ا' else c).map
    fun c => if c = 'ؤ' ∨ c = 'ئ' then 'ء' else c

/-- `normalizeRoot` (stemmer.go:832): Alef-Madda to Hamza+Alef, drop
Teh-Marbuta, Alef-Maksura to Yeh, then Hamza unification. -/
def normalizeRoot (w : List Char) : List Char :=
  let w1 := w.flatMap (fun c => if c = 'آ' then ['ء', 'ا'] else [c])
  let w2 := w1.filter (fun c => c ≠ 'ة')
  let w3 := w2.map (fun c => if c = 'ى' then 'ي' else c)
  normalizeHamza w3

/-- A Go string slice `s[a:b]` at BYTE offsets: defined only when
`0 ≤ a ≤ b ≤ len s` (in bytes); out-of-range bounds panic in Go and
give `none` here.  `getStarStem` and `handleTehInfix` apply this to
RUNE indices, which is the source's byte/rune confusion. -/
def goByteSlice (bs : List Nat) (a b : Int) : Option (List Nat) :=
  if 0 ≤ a ∧ a ≤ b ∧ b ≤ (bs.length : Int) then
    some ((bs.drop a.toNat).take (b - a).toNat)
  else none

/-- UTF-8 decoding of a byte sequence into units, as Go's `regexp`
walks a string: an ASCII byte or a valid 2-byte sequence (lead
`0xC2..0xDF` plus continuation) decodes to its rune; any other byte —
in particular a continuation byte or truncated lead byte produced by
slicing an Arabic string mid-rune — is an invalid single-byte unit
(`none`), which Go treats as U+FFFD of width 1.  Longer sequences do
not occur in the ASCII-plus-Arabic-block strings the stemmer handles,
so their lead bytes also fall to the invalid case. -/
def decodeUnits : List Nat → List (Option Char × List Nat)
  | [] => []
  | [b] =>
    if b < 0x80 then [(some (Char.ofNat b), [b])] else [(none, [b])]
  | b :: b1 :: rest1 =>
    if b < 0x80 then (some (Char.ofNat b), [b]) :: decodeUnits (b1 :: rest1)
    else if (0xC2 ≤ b ∧ b ≤ 0xDF) ∧ (0x80 ≤ b1 ∧ b1 ≤ 0xBF) then
      (some (Char.ofNat ((b - 0xC0) * 64 + (b1 - 0x80))), [b, b1])
        :: decodeUnits rest1
    else (none, [b]) :: decodeUnits (b1 :: rest1)

/-- `ReplaceAllString` of the negated character class `[^keep]` by the
joker, on a byte string: every decoded unit whose rune is in `keep`
is kept, every other unit — including each invalid byte, decoded as
U+FFFD, which the negated class matches — becomes the joker. -/
def utf8MaskKeep (keep : List Char) (joker : Char) (bs : List Nat) : List Nat :=
  (decodeUnits bs).flatMap fun u =>
    match u.1 with
    | some c => if keep.contains c then u.2 else utf8Bytes joker
    | none => utf8Bytes joker

/-- `ReplaceAllString` of the positive character class `[cls]` by the
joker, on a byte string: decoded runes in `cls` become the joker,
every other unit — invalid bytes do not match a positive class — is
kept. -/
def utf8ReplaceClass (cls : List Char) (joker : Char) (bs : List Nat) : List Nat :=
  (decodeUnits bs).flatMap fun u =>
    match u.1 with
    | some c => if cls.contains c then utf8Bytes joker else u.2
    | none => u.2

/-- The loop of `strings.Replace(s, old, new, -1)` /
`strings.ReplaceAll` on byte strings: leftmost non-overlapping
occurrences of `pat` become `repl`.  `gas` bounds the iterations (one
byte is consumed per round at least, so the length suffices). -/
def bytesReplaceLoop (pat repl : List Nat) : Nat → List Nat → List Nat
  | 0, s => s
  | gas + 1, s =>
    match s with
    | [] => []
    | b :: rest =>
      if pat ≠ [] ∧ pat.isPrefixOf s then
        repl ++ bytesReplaceLoop pat repl gas (s.drop pat.length)
      else b :: bytesReplaceLoop pat repl gas rest

/-- `strings.ReplaceAll` on byte strings (nonempty pattern). -/
def bytesReplaceAll (pat repl s : List Nat) : List Nat :=
  bytesReplaceLoop pat repl s.length s

/-- `handleTehInfix` (stemmer.go:880), on the byte string
`newStarstem`.  `len(keyStem)` is the BYTE length; the 4-letter branch
byte-slices `newStarstem[:2]`/`[2:]` and slices `word[left:right]`
with RUNE indices taken as byte offsets (a Go panic — `none` — when
out of byte range). -/
def handleTehInfix (cfg : Config) (word : List Char) (starB : List Nat)
    (l r : Int) : Option (List Nat) :=
  let keyStem := bytesReplaceAll (utf8Bytes 'ة') [] starB
  if keyStem.length ≠ 4 then
    some (utf8ReplaceClass ['ت', 'ط', 'د'] cfg.joker starB)
  else
    let s1 := starB.take 2
      ++ bytesReplaceAll (utf8Bytes 'ت') (utf8Bytes cfg.joker) (starB.drop 2)
    (goByteSlice (strBytes word) l r).bind fun wslice =>
      let s2 :=
        if (utf8Bytes 'ض' ++ utf8Bytes 'ط').isPrefixOf wslice then
          s1.take 2 ++ bytesReplaceAll (utf8Bytes 'ط') (utf8Bytes cfg.joker) (s1.drop 2)
        else bytesReplaceAll (utf8Bytes 'ط') (utf8Bytes cfg.joker) s1
      let s3 :=
        if (utf8Bytes 'ز' ++ utf8Bytes 'د').isPrefixOf wslice then
          s2.take 2 ++ bytesReplaceAll (utf8Bytes 'د') (utf8Bytes cfg.joker) (s2.drop 2)
        else bytesReplaceAll (utf8Bytes 'د') (utf8Bytes cfg.joker) s2
      some s3

/-- `getStarStem` (stemmer.go:845).  Faithfully to the source,
`starword[tempLeft:tempRight]` slices the BYTES of the word at RUNE
indices (so for an Arabic window the starred stem covers only
`tempRight - tempLeft` bytes, half a rune's worth per position, and
ends mid-rune); the masking regex keeps infix letters and Teh-Marbuta
and turns everything else, split bytes included, into the joker. -/
def getStarStem (cfg : Config) (word : List Char) (l r pi si : Int) :
    Option (List Nat) :=
  let tempLeft := if pi < 0 ∧ si < 0 then l else if pi ≥ 0 then pi else l
  let tempRight := if pi < 0 ∧ si < 0 then r else if si ≥ 0 then si else r
  (goByteSlice (strBytes word) tempLeft tempRight).bind fun window =>
    if cfg.infixLetters ≠ [] then
      handleTehInfix cfg word
        (utf8MaskKeep (cfg.infixLetters ++ ['ة']) cfg.joker window)
        tempLeft tempRight
    else
      some ((List.replicate window.length (utf8Bytes cfg.joker)).flatMap id)

/-- `ajustRoot` (stemmer.go:796), on byte strings as Go manipulates
them.  `len(starstem)` is the BYTE length (the dedicated 3-letter
branch fires only for 3-byte patterns), `starstem[0]`,
`starstem[len-1]`, `root[0]`, `root[1]` and `root[len-1]` read single
BYTES, and `string(b)` of a byte is the UTF-8 encoding of code point
`b`; indexing an empty or too-short root panics (`none`). -/
def ajustRoot (joker : Char) (root starstem : List Nat) : Option (List Nat) :=
  if starstem = [] then some root
  else if starstem.length = 3 then
    some (bytesReplaceAll (utf8Bytes 'ى') (utf8Bytes 'ي')
      (bytesReplaceAll (utf8Bytes 'ا') (utf8Bytes 'و') starstem))
  else
    let first := Char.ofNat (starstem.headD 0)
    let last := Char.ofNat (starstem.getLastD 0)
    if first = 'ا' ∨ first = 'و' then some (utf8Bytes 'و' ++ root)
    else if first = 'ي' then some (utf8Bytes 'ي' ++ root)
    else if first = joker ∧ (last = 'ا' ∨ last = 'و') then
      some (root ++ utf8Bytes 'و')
    else if first = joker ∧ (last = 'ى' ∨ last = 'ي') then
      some (root ++ utf8Bytes 'و')
    else if first = joker ∧ last = joker then
      if starstem.length = 2 then
        match root.getLast? with
        | some b => some (root ++ utf8Bytes (Char.ofNat b))
        | none => none
      else
        match root with
        | b0 :: b1 :: _ =>
          some (utf8Bytes (Char.ofNat b0) ++ utf8Bytes 'و' ++ utf8Bytes (Char.ofNat b1))
        | _ => none
    else some root

/-- `extractRoot` (stemmer.go:716), as a function of the stem it
computes via `getStem` (the claim quantifies over accepted stems) and
of the incoming `root` argument; the starred stem is computed by the
embedded `getStarStem`.  Faithfully to the source, the "3-letter stem
is its own root" test and the length comparison with the starred
pattern use BYTE lengths, the mask test `starStem[i] == joker` reads
the single byte at each rune's byte offset, and the result is the
byte string Go returns. -/
def extractRoot (cfg : Config) (root : List Nat) (word : List Char)
    (l r pi si : Int) (stem : List Char) : Option (List Nat) :=
  if goLen stem = 3 then ajustRoot cfg.joker root (strBytes stem)
  else
    (getStarStem cfg word l r pi si).bind fun starB =>
      let root1 : List Char :=
        if starB.length = goLen stem then
          (runeOffsets stem).foldl
            (fun acc ic =>
              if Char.ofNat (starB.getD ic.1 0) = cfg.joker then acc ++ [ic.2]
              else acc)
            []
        else stem
      let root2 := normalizeRoot root1
      if goLen root2 = 2 then ajustRoot cfg.joker (strBytes root2) starB
      else some (strBytes root2)

/-- `isRootLengthValid` (stemmer.go:309).  Faithfully to the source,
`len(root)` is the BYTE length: an Arabic root of 3 letters measures 6
and fails this check. -/
def isRootLengthValid (root : List Char) : Bool :=
  2 ≤ goLen root ∧ goLen root ≤ 4

/-- Byte-wise lexicographic order, as `sort.Strings` compares Go
strings. -/
def bytesLe : List Nat → List Nat → Bool
  | [], _ => true
  | _ :: _, [] => false
  | a :: as, b :: bs => if a < b then true else if b < a then false else bytesLe as bs

/-- String order used by `sort.Strings`. -/
def strLe (a b : List Char) : Bool :=
  bytesLe (strBytes a) (strBytes b)

/-- Insertion step of an ascending insertion sort. -/
def insertSorted (x : List Char) : List (List Char) → List (List Char)
  | [] => [x]
  | y :: ys => if strLe x y then x :: y :: ys else y :: insertSorted x ys

/-- `sort.Strings`: ascending byte-lexicographic sort (any sorting
algorithm yields the same list, duplicates being equal). -/
def sortStrings (l : List (List Char)) : List (List Char) :=
  l.foldr insertSorted []

/-- `mostCommon` (stemmer.go:271): restrict to BYTE-length-3 roots
when any exist, count occurrences, sort, and take the first item whose
count strictly exceeds all earlier maxima (`""` for the empty list). -/
def mostCommon (lst : List (List Char)) : List Char :=
  let tri := lst.filter (fun i => goLen i = 3)
  let l2 := if tri = [] then lst else tri
  let sorted := sortStrings l2
  (sorted.foldl
    (fun (acc : List Char × Nat) item =>
      if l2.count item > acc.2 then (item, l2.count item) else acc)
    ([], 0)).1

/-- The candidate filtering and selection of `chooseRoot`
(stemmer.go:766-791), as a function of the candidate root list
gathered from the affix tuples and of the root dictionary `isRoot`
(`rootsManager.IsRoot`): keep the roots of valid length when any,
then the dictionary roots when any, then pick the most common. -/
def chooseRootFrom (isRoot : List Char → Bool) (roots : List (List Char)) :
    List Char :=
  let acc1 := roots.filter isRootLengthValid
  let roots1 := if acc1 = [] then roots else acc1
  let acc2 := roots1.filter isRoot
  let roots2 := if acc2 = [] then roots1 else acc2
  mostCommon roots2

/-- Modelled from the spec: the default configuration
(`constant.DEFAULT_PREFIX_LETTERS`, `DEFAULT_SUFFIX_LETTERS`,
`DEFAULT_INFIX_LETTERS`, `DEFAULT_MAX_PREFIX = 5`,
`DEFAULT_MAX_SUFFIX = 6`, `DEFAULT_JOKER = "*"`,
`DEFAULT_PREFIX_LIST`, `DEFAULT_SUFFIX_LIST`, the affix-pair tables,
the stopword table and the verb-stamp registry) lives in the
`constant` package and external resources, which are not under `src/`.
This value follows the spec's description of that configuration
(§1, §3, §8): in particular the definite article `"ال"` is a listed
prefix (§8's `"الكاتب"` scenario), the empty prefix and suffix are
admissible (§4.1), and the letter classes cover the affixation
letters.  Only a representative fragment of the lists is carried; the
theorems below depend only on the stated memberships. -/
def specDefaultConfig : Config where
  prefixLetters := ['أ', 'ا', 'ب', 'ت', 'س', 'ف', 'ل', 'و', 'ك', 'د']
  suffixLetters := ['ا', 'ت', 'ة', 'ك', 'م', 'ن', 'ه', 'و', 'ي']
  infixLetters := ['ا', 'و', 'ي']
  maxPrefixLength := 5
  maxSuffixLength := 6
  joker := '*'
  prefixList := [[], ['ا', 'ل'], ['و'], ['و', 'ا', 'ل'], ['ب'], ['ف'],
    ['ل'], ['ب', 'ا', 'ل'], ['ف', 'ا', 'ل'], ['ل', 'ل']]
  suffixList := [[], ['ة'], ['ه'], ['ه', 'ا'], ['ي'], ['ك'],
    ['و', 'ن'], ['ي', 'ن'], ['ا', 'ت'], ['ا', 'ن']]
  verbAffixList := [['-'], ['ي', '-', 'و', 'ن'], ['ت', '-']]
  nounAffixList := [['-'], ['ا', 'ل', '-'], ['-', 'ة'], ['ا', 'ل', '-', 'ة']]
  stopwords := [(['م', 'ن'], ['م', 'ن']), (['إ', 'ل', 'ى'], ['إ', 'ل', 'ى'])]
  isVerbStamp := fun s => s = ['ك', 'ت', 'ب'] ∨ s = ['ض', 'ر', 'ب']

/-- Specification-side well-formedness of a segment map: keys are
distinct, every stored pair lies under its own left boundary, admits a
stem of at least 2 runes, and no pair repeats under one key. -/
def segWF (m : SegMap) : Prop :=
  (m.map Prod.fst).Nodup ∧
  ∀ kv ∈ m, (∀ p ∈ kv.2, p.1 = kv.1 ∧ kv.1 + 2 ≤ p.2) ∧ kv.2.Nodup

/-- The default configuration with the valid-affix-pair tables emptied:
with it no segment can pass `verifyAffix`, which exercises the
whole-word fallback of `chooseStem`. -/
def cfgNoAffix : Config :=
  { specDefaultConfig with verbAffixList := [], nounAffixList := [] }

/-- C9: `LightStem` on the empty word returns the empty word at once;
the `word == ""` test at stemmer.go:317 precedes the star-transform,
segmentation, validation and root extraction, none of which run. -/
theorem c9_lightStem_empty (cfg : Config) (fuel : Nat) :
    lightStem cfg fuel [] = some [] := rfl

/-- C1 (failing evaluation): with the default configuration — whose
prefix list contains the definite article — `lookupPrefixes` walks the
word `"ال"` with the loop bound `i < len(word)` taken in BYTES (4)
while `runeWord[i]` indexes runes (2), so the traversal indexes the
rune slice out of range and panics (`none`), and `LightStem` on `"ال"`
crashes instead of returning a string. -/
theorem c1_lookupPrefixes_oob :
    lookupPrefixes (createPrefixTree specDefaultConfig.prefixList) ['ا', 'ل'] = none
      ∧ lightStem specDefaultConfig 20 ['ا', 'ل'] = none := by
  decide

/-- C4 (counterexample evaluation): `chooseRoot`'s length filter
`isRootLengthValid` measures BYTES, so the 3-letter candidate
`"كتب"` (6 bytes) is rejected while the 1-letter `"ا"` (2 bytes) is
kept, and the chosen root has 1 character although a candidate of
length 3 was present. -/
theorem c4_chooseRoot_length_eval :
    chooseRootFrom (fun r => r = ['ك', 'ت', 'ب']) [['ك', 'ت', 'ب'], ['ا']] = ['ا']
      ∧ ([] : List Char) ≠ ['ا']
      ∧ (['ك', 'ت', 'ب'] : List Char).length = 3
      ∧ (['ا'] : List Char).length = 1
      ∧ isRootLengthValid ['ك', 'ت', 'ب'] = false := by
  decide

/-- C6: `validStem` with tag `"verb"` accepts a stem exactly when the
length is between 2 and 6 runes, no Teh-Marbuta occurs, a 6-letter
stem starts with Alef, a 5-letter stem starting with neither Alef nor
Teh does not follow a prefix ending in Yeh/Teh/Noon/Alef-Hamza-above,
an Alef-initial stem does not follow a prefix whose last letter is
Yeh/Noon/Teh/Alef-Hamza-above/Alef, and the stem is a known verb
stamp. -/
theorem c6_validStem_verb_iff (vs : List Char → Bool) (stem pre : List Char) :
    validStem vs stem "verb" pre = true ↔
      (2 ≤ stem.length ∧ stem.length ≤ 6)
      ∧ ¬ stem.contains 'ة' = true
      ∧ (stem.length = 6 → stem.head? = some 'ا')
      ∧ ¬ (stem.length = 5 ∧ ¬ stem.head? = some 'ا' ∧ ¬ stem.head? = some 'ت'
            ∧ (pre.getLast? = some 'ي' ∨ pre.getLast? = some 'ت'
               ∨ pre.getLast? = some 'ن' ∨ pre.getLast? = some 'أ'))
      ∧ ¬ (stem.head? = some 'ا' ∧ pre ≠ []
            ∧ (pre.getLast? = some 'ي' ∨ pre.getLast? = some 'ن'
               ∨ pre.getLast? = some 'ت' ∨ pre.getLast? = some 'أ'
               ∨ pre.getLast? = some 'ا'))
      ∧ vs stem = true := by
  unfold validStem
  by_cases hnil : stem = []
  · subst hnil; simp
  · simp only [if_neg hnil, if_pos rfl]
    split_ifs with h1 h2 h3 h4 h5 h6
    all_goals simp_all
    all_goals omega

theorem foldl_preserve {α β : Type _} (P : α → Prop) (f : α → β → α)
    (hf : ∀ a b, P a → P (f a b)) :
    ∀ (l : List β) (a : α), P a → P (l.foldl f a) := by
  intro l
  induction l with
  | nil => intro a ha; simpa using ha
  | cons x xs ih => intro a ha; simpa using ih (f a x) (hf a x ha)

theorem segLookup_of_mem (m : SegMap) (kv : Nat × List (Nat × Nat))
    (hnd : (m.map Prod.fst).Nodup) (hm : kv ∈ m) :
    segLookup m kv.1 = kv.2 := by
  induction m with
  | nil => cases hm
  | cons hd tl ih =>
    rcases List.mem_cons.mp hm with rfl | hm'
    · simp [segLookup, List.lookup]
    · have hk : ¬ hd.1 = kv.1 := by
        intro he
        have h1 : kv.1 ∈ tl.map Prod.fst := List.mem_map_of_mem Prod.fst hm'
        rw [List.map_cons, List.nodup_cons] at hnd
        exact hnd.1 (he ▸ h1)
      have hnd' : (tl.map Prod.fst).Nodup := by
        rw [List.map_cons, List.nodup_cons] at hnd; exact hnd.2
      simp only [segLookup, List.lookup]
      rw [show (kv.1 == hd.1) = false by simpa using fun h => hk h.symm]
      exact ih hnd' hm'

theorem segWF_segAppend (m : SegMap) (k : Nat) (p : Nat × Nat)
    (hp1 : p.1 = k) (hp2 : k + 2 ≤ p.2) (hmem : p ∉ segLookup m k)
    (h : segWF m) : segWF (segAppend m k p) := by
  obtain ⟨hnd, hall⟩ := h
  unfold segAppend
  split_ifs with hex
  · refine ⟨?_, ?_⟩
    · have heq : (List.map (fun kv => if kv.1 = k then (kv.1, kv.2 ++ [p]) else kv) m).map
          Prod.fst = m.map Prod.fst := by
        rw [List.map_map]
        apply List.map_congr_left
        intro kv _
        by_cases hkv : kv.1 = k <;> simp [hkv]
      rw [heq]; exact hnd
    · intro kv' hkv'
      rw [List.mem_map] at hkv'
      obtain ⟨kv, hkvm, rfl⟩ := hkv'
      by_cases hkv : kv.1 = k
      · simp only [if_pos hkv]
        have h2 := hall kv hkvm
        refine ⟨?_, ?_⟩
        · intro q hq
          rcases List.mem_append.mp hq with hq | hq
          · exact h2.1 q hq
          · have : q = p := by simpa using hq
            subst this
            exact ⟨by rw [hp1, hkv], by rw [hkv]; omega⟩
        · have hlk : segLookup m k = kv.2 := by
            have hl := segLookup_of_mem m kv hnd hkvm
            rwa [hkv] at hl
          have hpnot : p ∉ kv.2 := by rw [← hlk]; exact hmem
          simp [List.nodup_append, h2.2, hpnot]
      · simp only [if_neg hkv]; exact hall kv hkvm
  · have hknot : ∀ kv ∈ m, ¬ kv.1 = k := by
      intro kv hkvm he
      apply hex
      rw [List.any_eq_true]
      exact ⟨kv, hkvm, by simp [he]⟩
    refine ⟨?_, ?_⟩
    · rw [List.map_append]
      rw [List.nodup_append]
      refine ⟨hnd, by simp, ?_⟩
      intro a ha
      rw [List.mem_map] at ha
      obtain ⟨kv, hkvm, rfl⟩ := ha
      simp only [List.map_cons, List.map_nil, List.mem_singleton]
      intro he
      exact hknot kv hkvm (by simpa using he)
    · intro kv hkv
      rcases List.mem_append.mp hkv with hm' | hm'
      · exact hall kv hm'
      · have : kv = (k, [p]) := by simpa using hm'
        subst this
        refine ⟨?_, by simp⟩
        intro q hq
        have : q = p := by simpa using hq
        subst this
        exact ⟨hp1, hp2⟩

theorem buildSegs_wf (lefts rights : List Nat) : segWF (buildSegs lefts rights) := by
  unfold buildSegs
  apply foldl_preserve segWF _ ?_ lefts [] ⟨by simp, by simp⟩
  intro m i hm
  apply foldl_preserve segWF _ ?_ rights m hm
  intro m' j hm'
  split_ifs with hc
  · exact segWF_segAppend m' i (i, j) rfl hc.1 hc.2 hm'
  · exact hm'

/-- C7: every pair the segmenter stores satisfies
`right >= left + 2` (a stem of at least 2 runes), and no
`(left, right)` pair repeats under one left boundary. -/
theorem c7_segment_min_stem (cfg : Config) (w : List Char) (s : SegResult)
    (h : segmentWord cfg w = some s) :
    ∀ kv ∈ s.segs, (∀ p ∈ kv.2, p.1 + 2 ≤ p.2) ∧ kv.2.Nodup := by
  unfold segmentWord at h
  rw [Option.bind_eq_some] at h
  obtain ⟨lefts, _, hsome⟩ := h
  dsimp only at hsome
  rw [Option.some_inj] at hsome
  subst hsome
  intro kv hkv
  have hwf := (buildSegs_wf lefts
    (lookupSuffixes (createSuffixTree cfg.suffixList)
      (w.flatMap fun c => if c = 'آ' then ['ء', 'ا'] else [c]))).2 kv hkv
  refine ⟨fun p hp => ?_, hwf.2⟩
  have h1 := hwf.1 p hp
  omega

/-- C7 witness: the single entry of the segment map of `"كتب"` under
the default configuration. -/
theorem c7_segment_min_stem_witness :
    (∀ p ∈ [((0 : Nat), (3 : Nat))], p.1 + 2 ≤ p.2)
      ∧ ([((0 : Nat), (3 : Nat))] : List (Nat × Nat)).Nodup :=
  c7_segment_min_stem specDefaultConfig ['ك', 'ت', 'ب']
    (SegResult.mk [(0, [(0, 3)])] ['ك', 'ت', 'ب'] 0 3) (by decide)
    (0, [(0, 3)]) (by decide)

theorem glMaxFold_ge (l : SegMap) : ∀ a : Int, a ≤ l.foldl glMaxStep a := by
  induction l with
  | nil => intro a; simp
  | cons hd tl ih =>
    intro a
    have h1 : a ≤ glMaxStep a hd := by unfold glMaxStep; split_ifs with h <;> omega
    calc a ≤ glMaxStep a hd := h1
      _ ≤ tl.foldl glMaxStep (glMaxStep a hd) := ih _
      _ = (hd :: tl).foldl glMaxStep a := by simp

theorem glMaxFold_mem_le (l : SegMap) :
    ∀ (a : Int), ∀ kv ∈ l, (kv.1 : Int) ≤ l.foldl glMaxStep a := by
  induction l with
  | nil => intro a kv h; cases h
  | cons hd tl ih =>
    intro a kv h
    rcases List.mem_cons.mp h with rfl | h'
    · have h1 : (kv.1 : Int) ≤ glMaxStep a kv := by
        unfold glMaxStep; split_ifs with h <;> omega
      calc (kv.1 : Int) ≤ glMaxStep a kv := h1
        _ ≤ tl.foldl glMaxStep (glMaxStep a kv) := glMaxFold_ge tl _
        _ = (kv :: tl).foldl glMaxStep a := by simp
    · simpa using ih (glMaxStep a hd) kv h'

theorem glMaxFold_eq (l : SegMap) :
    ∀ a : Int, l.foldl glMaxStep a = a ∨ ∃ kv ∈ l, l.foldl glMaxStep a = (kv.1 : Int) := by
  induction l with
  | nil => intro a; left; rfl
  | cons hd tl ih =>
    intro a
    rcases ih (glMaxStep a hd) with h | ⟨kv, hkv, h⟩
    · have : (hd :: tl).foldl glMaxStep a = glMaxStep a hd := by simpa using h
      by_cases hc : (hd.1 : Int) > a
      · right; exact ⟨hd, List.mem_cons_self hd tl, by rw [this]; unfold glMaxStep; simp [hc]⟩
      · left; rw [this]; unfold glMaxStep; simp [hc]
    · right
      exact ⟨kv, List.mem_cons_of_mem hd hkv, by simpa using h⟩

theorem glMinFold_flatten (ls : SegMap) :
    ∀ a : Int, ls.foldl (fun acc kv => kv.2.foldl glMinStep acc) a
      = (ls.flatMap (fun kv => kv.2)).foldl glMinStep a := by
  induction ls with
  | nil => intro a; rfl
  | cons hd tl ih =>
    intro a
    simp only [List.foldl_cons, List.flatMap_cons, List.foldl_append]
    exact ih _

theorem glMinFold_nonneg (l : List (Nat × Nat)) :
    ∀ a : Int, 0 ≤ a → 0 ≤ l.foldl glMinStep a := by
  induction l with
  | nil => intro a ha; simpa using ha
  | cons hd tl ih =>
    intro a ha
    have : (0 : Int) ≤ glMinStep a hd := by
      unfold glMinStep; split_ifs with h <;> omega
    simpa using ih _ this

theorem glMinFold_le_init (l : List (Nat × Nat)) :
    ∀ a : Int, a ≠ -1 → l.foldl glMinStep a ≤ a := by
  induction l with
  | nil => intro a _; simp
  | cons hd tl ih =>
    intro a ha
    by_cases hc : (hd.2 : Int) < a
    · have hstep : glMinStep a hd = (hd.2 : Int) := by unfold glMinStep; simp [hc]
      have h2 : tl.foldl glMinStep (hd.2 : Int) ≤ (hd.2 : Int) := ih _ (by omega)
      calc (hd :: tl).foldl glMinStep a = tl.foldl glMinStep (hd.2 : Int) := by
            simp [hstep]
        _ ≤ (hd.2 : Int) := h2
        _ ≤ a := by omega
    · have hstep : glMinStep a hd = a := by unfold glMinStep; simp [ha, hc]
      calc (hd :: tl).foldl glMinStep a = tl.foldl glMinStep a := by simp [hstep]
        _ ≤ a := ih _ ha

theorem glMinFold_le_mem (l : List (Nat × Nat)) :
    ∀ (a : Int), ∀ p ∈ l, l.foldl glMinStep a ≤ (p.2 : Int) := by
  induction l with
  | nil => intro a p h; cases h
  | cons hd tl ih =>
    intro a p h
    rcases List.mem_cons.mp h with rfl | h'
    · by_cases hc : a = -1 ∨ (p.2 : Int) < a
      · have hstep : glMinStep a p = (p.2 : Int) := by unfold glMinStep; simp [hc]
        have h2 : tl.foldl glMinStep (p.2 : Int) ≤ (p.2 : Int) := glMinFold_le_init tl _ (by omega)
        calc (p :: tl).foldl glMinStep a = tl.foldl glMinStep (p.2 : Int) := by simp [hstep]
          _ ≤ (p.2 : Int) := h2
      · push_neg at hc
        have hstep : glMinStep a p = a := by unfold glMinStep; simp; omega
        calc (p :: tl).foldl glMinStep a = tl.foldl glMinStep a := by simp [hstep]
          _ ≤ a := glMinFold_le_init tl _ hc.1
          _ ≤ (p.2 : Int) := hc.2
    · simpa using ih (glMinStep a hd) p h'

theorem glMinFold_eq (l : List (Nat × Nat)) :
    ∀ a : Int, l.foldl glMinStep a = a ∨ ∃ p ∈ l, l.foldl glMinStep a = (p.2 : Int) := by
  induction l with
  | nil => intro a; left; rfl
  | cons hd tl ih =>
    intro a
    rcases ih (glMinStep a hd) with h | ⟨p, hp, h⟩
    · have heq : (hd :: tl).foldl glMinStep a = glMinStep a hd := by simpa using h
      by_cases hc : a = -1 ∨ (hd.2 : Int) < a
      · right
        exact ⟨hd, List.mem_cons_self hd tl, by rw [heq]; unfold glMinStep; simp [hc]⟩
      · left; rw [heq]; unfold glMinStep; simp [hc]
    · right
      exact ⟨p, List.mem_cons_of_mem hd hp, by simpa using h⟩

/-- C8: on a nonempty segment map (whose stored pairs lie under their
own left boundary, as the segmenter guarantees), `getLeftRight`
returns the maximum left boundary over all segments paired with the
minimum right boundary over all segments. -/
theorem c8_getLeftRight_max_min (ls : SegMap) (h1 : ls ≠ [])
    (h2 : ∀ kv ∈ ls, kv.2 ≠ [])
    (h3 : ∀ kv ∈ ls, ∀ p ∈ kv.2, p.1 = kv.1) :
    (∃ kv ∈ ls, ∃ p ∈ kv.2, (getLeftRight ls).1 = (p.1 : Int))
    ∧ (∀ kv ∈ ls, ∀ p ∈ kv.2, (p.1 : Int) ≤ (getLeftRight ls).1)
    ∧ (∃ kv ∈ ls, ∃ p ∈ kv.2, (getLeftRight ls).2 = (p.2 : Int))
    ∧ (∀ kv ∈ ls, ∀ p ∈ kv.2, (getLeftRight ls).2 ≤ (p.2 : Int)) := by
  unfold getLeftRight
  rw [if_neg h1]
  obtain ⟨hd, tl, rfl⟩ := List.exists_cons_of_ne_nil h1
  refine ⟨?_, ?_, ?_, ?_⟩
  · rcases glMaxFold_eq (hd :: tl) (-1) with h | ⟨kv, hkv, h⟩
    · exfalso
      have hle := glMaxFold_mem_le (hd :: tl) (-1) hd (List.mem_cons_self hd tl)
      rw [h] at hle
      omega
    · obtain ⟨p, hp⟩ := List.exists_mem_of_ne_nil _ (h2 kv hkv)
      exact ⟨kv, hkv, p, hp, by rw [h, h3 kv hkv p hp]⟩
  · intro kv hkv p hp
    rw [h3 kv hkv p hp]
    exact glMaxFold_mem_le (hd :: tl) (-1) kv hkv
  · rw [glMinFold_flatten]
    have hflat : hd.2 ≠ [] := h2 hd (List.mem_cons_self hd tl)
    obtain ⟨p0, hp0⟩ := List.exists_mem_of_ne_nil _ hflat
    have hp0f : p0 ∈ (hd :: tl).flatMap (fun kv => kv.2) :=
      List.mem_flatMap.mpr ⟨hd, List.mem_cons_self hd tl, hp0⟩
    rcases glMinFold_eq ((hd :: tl).flatMap (fun kv => kv.2)) (-1) with h | ⟨p, hp, h⟩
    · exfalso
      -- the fold starts at -1 but initializes on the first pair, so it is ≥ 0
      obtain ⟨q, hq, hflateq⟩ :=
        List.exists_cons_of_ne_nil (l := (hd :: tl).flatMap (fun kv => kv.2))
          (by intro hnil; rw [hnil] at hp0f; cases hp0f)
      rw [hflateq] at h
      have hstep : glMinStep (-1) q = (q.2 : Int) := by unfold glMinStep; simp
      have hge : (0 : Int) ≤ (q :: hq).foldl glMinStep (-1) := by
        rw [List.foldl_cons, hstep]
        exact glMinFold_nonneg hq _ (by omega)
      rw [h] at hge
      omega
    · obtain ⟨kv, hkv, hpkv⟩ := List.mem_flatMap.mp hp
      exact ⟨kv, hkv, p, hpkv, h⟩
  · intro kv hkv p hp
    rw [glMinFold_flatten]
    exact glMinFold_le_mem _ (-1) p (List.mem_flatMap.mpr ⟨kv, hkv, hp⟩)

/-- C8 witness: a two-entry segment map, on which `getLeftRight`
returns `(1, 3)`. -/
theorem c8_getLeftRight_max_min_witness :
    (∃ kv ∈ ([(0, [(0, 3)]), (1, [(1, 4)])] : SegMap), ∃ p ∈ kv.2,
        (getLeftRight [(0, [(0, 3)]), (1, [(1, 4)])]).1 = (p.1 : Int))
    ∧ (∀ kv ∈ ([(0, [(0, 3)]), (1, [(1, 4)])] : SegMap), ∀ p ∈ kv.2,
        (p.1 : Int) ≤ (getLeftRight [(0, [(0, 3)]), (1, [(1, 4)])]).1)
    ∧ (∃ kv ∈ ([(0, [(0, 3)]), (1, [(1, 4)])] : SegMap), ∃ p ∈ kv.2,
        (getLeftRight [(0, [(0, 3)]), (1, [(1, 4)])]).2 = (p.2 : Int))
    ∧ (∀ kv ∈ ([(0, [(0, 3)]), (1, [(1, 4)])] : SegMap), ∀ p ∈ kv.2,
        (getLeftRight [(0, [(0, 3)]), (1, [(1, 4)])]).2 ≤ (p.2 : Int)) :=
  c8_getLeftRight_max_min [(0, [(0, 3)]), (1, [(1, 4)])]
    (by decide) (by decide) (by decide)


theorem lightStem_unfold (cfg : Config) (fuel : Nat) (w : List Char) (hw : w ≠ []) :
    lightStem cfg fuel w =
      (transform2Stars cfg w).bind fun t =>
        (segmentWord cfg w).bind fun s =>
          getStem fuel cfg w s.unvoc s.left s.right t.left t.right (-1) (-1) s.segs := by
  unfold lightStem
  rw [if_neg hw]

theorem segmentWord_unvoc (cfg : Config) (w : List Char) (s : SegResult)
    (h : segmentWord cfg w = some s) : s.unvoc = stripTashkeel w := by
  unfold segmentWord at h
  rw [Option.bind_eq_some] at h
  obtain ⟨lefts, _, hsome⟩ := h
  dsimp only at hsome
  rw [Option.some_inj] at hsome
  subst hsome
  rfl

theorem stripTashkeel_length_le (w : List Char) :
    (stripTashkeel w).length ≤ w.length := by
  unfold stripTashkeel
  split_ifs <;> simp [List.length_filter_le]

theorem getStem_unset (fuel : Nat) (cfg : Config) (w u : List Char)
    (l r sl sr : Int) (m : SegMap) :
    getStem (fuel + 1) cfg w u l r sl sr (-1) (-1) m
      = chooseStem fuel cfg w u l r sl sr m := by
  simp [getStem]

/-- C2: for a (nonempty) word present in the stopword table, any
result `LightStem` returns is exactly the table's tashkeel-stripped
stem: `chooseStem` checks the table first and returns `StopStem`
before validation or boundary choice, so the value does not depend on
the segmentation outcome. -/
theorem c2_stopword_bypass (cfg : Config) (fuel : Nat) (w res : List Char)
    (hw : w ≠ []) (hsw : isStopword cfg w = true)
    (hres : lightStem cfg fuel w = some res) :
    res = stopStem cfg w := by
  rw [lightStem_unfold cfg fuel w hw, Option.bind_eq_some] at hres
  obtain ⟨t, -, hres⟩ := hres
  rw [Option.bind_eq_some] at hres
  obtain ⟨s, -, hres⟩ := hres
  match fuel with
  | 0 => simp [getStem] at hres
  | n + 1 =>
    rw [getStem_unset] at hres
    match n with
    | 0 => simp [chooseStem] at hres
    | m + 1 =>
      simp only [chooseStem, hsw, if_true] at hres
      simp_all

theorem goSlice_substring (u res : List Char) (l r : Int)
    (h : goSlice u l r = some res) :
    ∃ a b : Nat, a ≤ b ∧ b ≤ u.length ∧ res = (u.drop a).take (b - a) := by
  unfold goSlice at h
  split_ifs at h with hc
  rw [Option.some_inj] at h
  obtain ⟨h0, h1, h2⟩ := hc
  refine ⟨l.toNat, r.toNat, by omega, by omega, ?_⟩
  rw [← h]
  congr 1
  omega

/-- C10: for a nonempty non-stopword input, any result `LightStem`
returns is a contiguous rune-substring of the tashkeel-stripped word:
`chooseStem` always slices the unvocalized word between two
boundaries. -/
theorem c10_stem_substring (cfg : Config) (fuel : Nat) (w res : List Char)
    (hw : w ≠ []) (hsw : isStopword cfg w = false)
    (hres : lightStem cfg fuel w = some res) :
    ∃ l rr : Nat, l ≤ rr ∧ rr ≤ (stripTashkeel w).length ∧
      res = ((stripTashkeel w).drop l).take (rr - l) := by
  rw [lightStem_unfold cfg fuel w hw, Option.bind_eq_some] at hres
  obtain ⟨t, -, hres⟩ := hres
  rw [Option.bind_eq_some] at hres
  obtain ⟨s, hs, hres⟩ := hres
  have hu : s.unvoc = stripTashkeel w := segmentWord_unvoc cfg w s hs
  match fuel with
  | 0 => simp [getStem] at hres
  | n + 1 =>
    rw [getStem_unset] at hres
    match n with
    | 0 => simp [chooseStem] at hres
    | m + 1 =>
      simp only [chooseStem, hsw, Bool.false_eq_true, if_false] at hres
      rw [Option.bind_eq_some] at hres
      obtain ⟨u1, -, hres⟩ := hres
      rw [Option.bind_eq_some] at hres
      obtain ⟨valid, -, hres⟩ := hres
      rw [← hu]
      exact goSlice_substring _ _ _ _ hres

theorem goSlice_full (u : List Char) :
    goSlice u 0 (u.length : Int) = some u := by
  unfold goSlice
  rw [if_pos (by refine ⟨le_refl 0, by omega, le_refl _⟩)]
  simp

/-- C3: when no stored segment passes affix verification (the
collected valid-segment map is empty), `chooseStem` falls back to
`left = 0`, `right = len(word)` and the chosen stem is the whole
tashkeel-stripped word. -/
theorem c3_no_valid_segment_whole_word (cfg : Config) (fuel : Nat)
    (w res : List Char) (t : StarResult) (s : SegResult)
    (hw : w ≠ []) (hsw : isStopword cfg w = false)
    (ht : transform2Stars cfg w = some t)
    (hs : segmentWord cfg w = some s)
    (hvalid : collectValid fuel cfg w s.unvoc s.left s.right t.left t.right
      s.segs s.segs [] = some [])
    (hres : lightStem cfg (fuel + 2) w = some res) :
    res = stripTashkeel w := by
  rw [lightStem_unfold cfg _ w hw, ht, Option.some_bind, hs, Option.some_bind] at hres
  rw [show fuel + 2 = (fuel + 1) + 1 from rfl, getStem_unset] at hres
  simp only [chooseStem, hsw, Bool.false_eq_true, if_false] at hres
  rw [Option.bind_eq_some] at hres
  obtain ⟨u1, -, hres⟩ := hres
  rw [hvalid, Option.some_bind] at hres
  have hu : s.unvoc = stripTashkeel w := segmentWord_unvoc cfg w s hs
  have hlen : (stripTashkeel w).length ≤ w.length := stripTashkeel_length_le w
  rw [hu] at hres
  norm_num at hres
  by_cases hgt : (stripTashkeel w).length < w.length
  · rw [if_pos hgt, goSlice_full, Option.some_inj] at hres
    exact hres.symm
  · rw [if_neg hgt] at hres
    have heq : ((w.length : Int)) = ((stripTashkeel w).length : Int) := by omega
    rw [heq, goSlice_full, Option.some_inj] at hres
    exact hres.symm

/-- C2 witness: the stopword `"من"` of the default table. -/
theorem c2_stopword_bypass_witness :
    (['م', 'ن'] : List Char) ≠ [] ∧ isStopword specDefaultConfig ['م', 'ن'] = true
      ∧ ['م', 'ن'] = stopStem specDefaultConfig ['م', 'ن'] :=
  ⟨by decide, by decide,
    c2_stopword_bypass specDefaultConfig 20 ['م', 'ن'] ['م', 'ن']
      (by decide) (by decide) (by decide)⟩

/-- C3 witness: with the affix-pair tables emptied nothing validates,
and `"كتب"` comes back whole. -/
theorem c3_no_valid_segment_whole_word_witness :
    (['ك', 'ت', 'ب'] : List Char) = stripTashkeel ['ك', 'ت', 'ب'] :=
  c3_no_valid_segment_whole_word cfgNoAffix 4 ['ك', 'ت', 'ب'] ['ك', 'ت', 'ب']
    (StarResult.mk ['*', '*', '*'] ['ك', 'ت', 'ب'] 0 3)
    (SegResult.mk [(0, [(0, 3)])] ['ك', 'ت', 'ب'] 0 3)
    (by decide) (by decide) (by decide) (by decide) (by decide) (by decide)

/-- C10 witness: the stem of `"كتب"` under the default configuration
is a substring of the stripped word. -/
theorem c10_stem_substring_witness :
    ∃ l rr : Nat, l ≤ rr ∧ rr ≤ (stripTashkeel ['ك', 'ت', 'ب']).length ∧
      (['ك', 'ت', 'ب'] : List Char)
        = ((stripTashkeel ['ك', 'ت', 'ب']).drop l).take (rr - l) :=
  c10_stem_substring specDefaultConfig 20 ['ك', 'ت', 'ب'] ['ك', 'ت', 'ب']
    (by decide) (by decide) (by decide)

theorem decodeUnits_join (bs : List Nat) :
    (decodeUnits bs).flatMap (fun u => u.2) = bs := by
  induction bs using decodeUnits.induct with
  | case1 => rfl
  | case2 b h => simp [decodeUnits, h]
  | case3 b h =>
    unfold decodeUnits
    rw [if_neg (by omega)]
    rfl
  | case4 b b1 rest1 h ih => simp [decodeUnits, h, ih]
  | case5 b b1 rest1 h1 h2 ih =>
    unfold decodeUnits
    rw [if_neg (by omega), if_pos h2]
    simp [ih]
  | case6 b b1 rest1 h1 h2 ih =>
    unfold decodeUnits
    rw [if_neg (by omega), if_neg (by tauto)]
    simp [ih]

theorem decodeUnits_unit_pos (bs : List Nat) :
    ∀ u ∈ decodeUnits bs, 1 ≤ u.2.length := by
  induction bs using decodeUnits.induct with
  | case1 => intro u h; cases h
  | case2 b h => intro u hu; simp [decodeUnits, h] at hu; simp [hu]
  | case3 b h =>
    intro u hu
    unfold decodeUnits at hu
    rw [if_neg (by omega)] at hu
    simp at hu
    simp [hu]
  | case4 b b1 rest1 h ih =>
    intro u hu
    simp only [decodeUnits, h, if_true] at hu
    rcases List.mem_cons.mp hu with rfl | hu'
    · simp
    · exact ih u hu'
  | case5 b b1 rest1 h1 h2 ih =>
    intro u hu
    unfold decodeUnits at hu
    rw [if_neg (by omega), if_pos h2] at hu
    rcases List.mem_cons.mp hu with rfl | hu'
    · simp
    · exact ih u hu'
  | case6 b b1 rest1 h1 h2 ih =>
    intro u hu
    unfold decodeUnits at hu
    rw [if_neg (by omega), if_neg (by tauto)] at hu
    rcases List.mem_cons.mp hu with rfl | hu'
    · simp
    · exact ih u hu'

theorem flatMap_length_le {α : Type _} (us : List α) (f g : α → List Nat)
    (h : ∀ u ∈ us, (f u).length ≤ (g u).length) :
    (us.flatMap f).length ≤ (us.flatMap g).length := by
  induction us with
  | nil => simp
  | cons hd tl ih =>
    simp only [List.flatMap_cons, List.length_append]
    have h1 := h hd (List.mem_cons_self hd tl)
    have h2 := ih (fun u hu => h u (List.mem_cons_of_mem hd hu))
    omega

theorem utf8MaskKeep_length_le (keep : List Char) (joker : Char)
    (hj : (utf8Bytes joker).length = 1) (bs : List Nat) :
    (utf8MaskKeep keep joker bs).length ≤ bs.length := by
  unfold utf8MaskKeep
  calc ((decodeUnits bs).flatMap fun u =>
          match u.1 with
          | some c => if keep.contains c then u.2 else utf8Bytes joker
          | none => utf8Bytes joker).length
      ≤ ((decodeUnits bs).flatMap fun u => u.2).length := by
        apply flatMap_length_le
        intro u hu
        have hpos := decodeUnits_unit_pos bs u hu
        rcases u with ⟨oc, ub⟩
        rcases oc with _ | c
        · simpa [hj] using hpos
        · dsimp only
          split_ifs
          · exact le_refl _
          · simpa [hj] using hpos
    _ = bs.length := by rw [decodeUnits_join]

theorem utf8ReplaceClass_length_le (cls : List Char) (joker : Char)
    (hj : (utf8Bytes joker).length = 1) (bs : List Nat) :
    (utf8ReplaceClass cls joker bs).length ≤ bs.length := by
  unfold utf8ReplaceClass
  calc ((decodeUnits bs).flatMap fun u =>
          match u.1 with
          | some c => if cls.contains c then utf8Bytes joker else u.2
          | none => u.2).length
      ≤ ((decodeUnits bs).flatMap fun u => u.2).length := by
        apply flatMap_length_le
        intro u hu
        have hpos := decodeUnits_unit_pos bs u hu
        rcases u with ⟨oc, ub⟩
        rcases oc with _ | c
        · exact le_refl _
        · dsimp only
          split_ifs
          · simpa [hj] using hpos
          · exact le_refl _
    _ = bs.length := by rw [decodeUnits_join]

theorem bytesReplaceLoop_length_le (pat repl : List Nat)
    (hle : repl.length ≤ pat.length) :
    ∀ (gas : Nat) (s : List Nat), (bytesReplaceLoop pat repl gas s).length ≤ s.length := by
  intro gas
  induction gas with
  | zero => intro s; simp [bytesReplaceLoop]
  | succ g ih =>
    intro s
    unfold bytesReplaceLoop
    match s with
    | [] => simp
    | b :: rest =>
      split_ifs with hc
      · have hplen : pat.length ≤ (b :: rest).length :=
          List.IsPrefix.length_le (List.isPrefixOf_iff_prefix.mp hc.2)
        have h1 := ih ((b :: rest).drop pat.length)
        simp only [List.length_append, List.length_drop] at *
        omega
      · have h1 := ih rest
        simp only [List.length_cons]
        omega

theorem bytesReplaceAll_length_le (pat repl s : List Nat)
    (hle : repl.length ≤ pat.length) :
    (bytesReplaceAll pat repl s).length ≤ s.length :=
  bytesReplaceLoop_length_le pat repl hle s.length s

theorem length_le_strBytes (w : List Char) : w.length ≤ (strBytes w).length := by
  induction w with
  | nil => simp [strBytes]
  | cons c cs ih =>
    have h1 : 1 ≤ (utf8Bytes c).length := by
      unfold utf8Bytes; dsimp only; split_ifs <;> simp
    simp only [strBytes, List.flatMap_cons, List.length_append, List.length_cons] at *
    omega

theorem getStarStem_window (cfg : Config) (word : List Char) (l r pi si : Int)
    (hj : (utf8Bytes cfg.joker).length = 1)
    (hpi : 0 ≤ pi) (hsi : si = pi + 3) (hword : si ≤ (word.length : Int)) :
    ∃ starB, getStarStem cfg word l r pi si = some starB ∧ starB.length ≤ 3 := by
  unfold getStarStem
  rw [if_neg (show ¬ (pi < 0 ∧ si < 0) by omega), if_pos (show pi ≥ 0 by omega),
    if_neg (show ¬ (pi < 0 ∧ si < 0) by omega), if_pos (show si ≥ 0 by omega)]
  have hwb : (word.length : Int) ≤ ((strBytes word).length : Int) := by
    exact_mod_cast length_le_strBytes word
  dsimp only
  unfold goByteSlice
  rw [if_pos (by omega)]
  rw [Option.some_bind]
  set window := ((strBytes word).drop pi.toNat).take (si - pi).toNat with hwdef
  have hwlen : window.length ≤ 3 := by
    calc window.length ≤ (si - pi).toNat := List.length_take_le _ _
      _ = 3 := by omega
  split_ifs with hinf
  · set masked := utf8MaskKeep (cfg.infixLetters ++ ['ة']) cfg.joker window with hmdef
    have hmlen : masked.length ≤ 3 :=
      le_trans (utf8MaskKeep_length_le _ _ hj window) hwlen
    unfold handleTehInfix
    have hkey : (bytesReplaceAll (utf8Bytes 'ة') [] masked).length ≠ 4 := by
      have := bytesReplaceAll_length_le (utf8Bytes 'ة') [] masked (by simp)
      omega
    rw [if_pos hkey]
    exact ⟨_, rfl, le_trans (utf8ReplaceClass_length_le _ _ hj masked) hmlen⟩
  · refine ⟨_, rfl, ?_⟩
    have hrep : ∀ (n : Nat) (x : List Nat),
        ((List.replicate n x).flatMap id).length = n * x.length := by
      intro n x
      induction n with
      | zero => simp
      | succ k ih => simp [List.replicate_succ, ih]; ring
    rw [hrep, hj]
    omega

/-- C5: for every accepted 3-character stem (three 2-byte Arabic
runes, bracketed by the prefix index `pi` and suffix index `si = pi+3`
that `getAffixTuple` supplies, as `SetJoker` keeps the joker at one
byte), `extractRoot` returns the stem unchanged up to the documented
normalization substitutions (`normalizeRoot`: Alef-Madda expansion,
Teh-Marbuta removal, Alef-Maksura to Yeh, Hamza unification), and no
star-pattern masking is performed: the starred stem spans only
`si - pi = 3` BYTES of the word (the source slices bytes at rune
indices), so it can never byte-equal the 6-byte stem and the masking
branch is skipped.  The `goLen (normalizeRoot stem) ≠ 2` hypothesis is
the source's own final-adjustment guard (stemmer.go:742), which only a
stem with two Teh-Marbutas escapes. -/
theorem c5_extractRoot_three_char (cfg : Config) (root : List Nat)
    (word stem : List Char) (l r pi si : Int)
    (hj : (utf8Bytes cfg.joker).length = 1)
    (hlen : stem.length = 3)
    (hbytes : ∀ c ∈ stem, (utf8Bytes c).length = 2)
    (hpi : 0 ≤ pi) (hsi : si = pi + 3)
    (hword : si ≤ (word.length : Int))
    (hnot2 : goLen (normalizeRoot stem) ≠ 2) :
    extractRoot cfg root word l r pi si stem
      = some (strBytes (normalizeRoot stem)) := by
  have h6 : goLen stem = 6 := by
    match stem, hlen with
    | [a, b, c], _ =>
      have ha := hbytes a (by simp)
      have hb := hbytes b (by simp)
      have hc := hbytes c (by simp)
      simp only [goLen, strBytes, List.flatMap_cons, List.flatMap_nil,
        List.length_append, List.length_nil, ha, hb, hc]
  obtain ⟨starB, hstar, hshort⟩ := getStarStem_window cfg word l r pi si hj hpi hsi hword
  unfold extractRoot
  have hne3 : ¬ goLen stem = 3 := by omega
  have hnemask : ¬ starB.length = goLen stem := by omega
  rw [if_neg hne3, hstar, Option.some_bind]
  dsimp only
  rw [if_neg hnemask, if_neg hnot2]

/-- C5 witness: the 3-character stem `"اوي"` at indices (0, 3) of the
word `"اوي"`: its starred stem is the 3-byte `"ا*"`, no masking
occurs, and the returned root is the stem itself (whose normalization
is the identity). -/
theorem c5_extractRoot_three_char_witness :
    extractRoot specDefaultConfig [] ['ا', 'و', 'ي'] 0 3 0 3 ['ا', 'و', 'ي']
        = some (strBytes (normalizeRoot ['ا', 'و', 'ي']))
      ∧ normalizeRoot ['ا', 'و', 'ي'] = ['ا', 'و', 'ي'] :=
  ⟨c5_extractRoot_three_char specDefaultConfig [] ['ا', 'و', 'ي'] ['ا', 'و', 'ي']
      0 3 0 3 (by decide) (by decide) (by decide) (by decide) (by decide)
      (by decide) (by decide),
    by decide⟩
